import Mathlib

/-!
Shallow embedding of the ebook-to-audiobook converter
(src/extractors.py and src/main.py).

Strings are modelled as lists of characters.  The whitespace and digit
classes model the ASCII behaviour of the Python regular expressions.
External collaborators (the file system, the EPUB reader and the TTS
engine) are modelled as function parameters.  Audio samples are modelled
as integers: only sample counts and the zero sample matter to the
properties under study.
-/

/-! ### Character classes -/

/-- The Python regex class for whitespace (ASCII fragment), also the set
stripped by str.strip. -/
def pyIsSpace (c : Char) : Bool :=
  c = ' ' || c = '\t' || c = '\n' || c = '\r' || c = '\x0b' || c = '\x0c'

/-- The Python regex class for digits (ASCII fragment). -/
def pyIsDigit (c : Char) : Bool := '0' ≤ c && c ≤ '9'

/-! ### clean_text (src/extractors.py lines 51-65) -/

/-- Model of re.sub with pattern backslash-s-plus and a single-space
replacement: every maximal whitespace run becomes one space.  The
Boolean argument records whether the previously read character was part
of a whitespace run. -/
def collapseWSAux : Bool → List Char → List Char
  | _, [] => []
  | prev, c :: cs =>
    if pyIsSpace c then
      if prev then collapseWSAux true cs else ' ' :: collapseWSAux true cs
    else c :: collapseWSAux false cs

/-- First substitution of clean_text: collapse whitespace runs. -/
def collapseWS (s : List Char) : List Char := collapseWSAux false s

/-- Position of the last newline in a list, if any. -/
def lastNewlinePos : List Char → Option Nat
  | [] => none
  | c :: cs =>
    match lastNewlinePos cs with
    | some j => some (j + 1)
    | none => if c = '\n' then some 0 else none

/-- Model of matching the page-number pattern (newline, optional
whitespace, digits, optional whitespace, newline) at the head of the
list, with the greedy backtracking semantics of the Python engine.
Returns the number of characters consumed by the match. -/
def matchPageAt : List Char → Option Nat
  | [] => none
  | c :: rest =>
    if c = '\n' then
      let w1 := rest.takeWhile pyIsSpace
      let r1 := rest.dropWhile pyIsSpace
      let d := r1.takeWhile pyIsDigit
      if d.isEmpty then none
      else
        let r2 := r1.dropWhile pyIsDigit
        let w2 := r2.takeWhile pyIsSpace
        match lastNewlinePos w2 with
        | some j => some (1 + w1.length + d.length + j + 1)
        | none => none
    else none

/-- Second substitution of clean_text: replace each leftmost
non-overlapping occurrence of the page-number pattern with a single
newline. -/
def removePageNums : List Char → List Char
  | [] => []
  | c :: cs =>
    match matchPageAt (c :: cs) with
    | some k => '\n' :: removePageNums (cs.drop (k - 1))
    | none => c :: removePageNums cs
termination_by l => l.length
decreasing_by
  all_goals simp [List.length_drop]
  omega

/-- Third step of clean_text: replace the single-codepoint ligatures
fi and fl with their two-letter forms. -/
def replaceLigatures : List Char → List Char
  | [] => []
  | c :: cs =>
    if c = 'ﬁ' then 'f' :: 'i' :: replaceLigatures cs
    else if c = 'ﬂ' then 'f' :: 'l' :: replaceLigatures cs
    else c :: replaceLigatures cs

/-- Sentence-terminating punctuation recognised by clean_text. -/
def isPunct (c : Char) : Bool := c = '.' || c = '!' || c = '?'

/-- ASCII letter class of the punctuation-spacing pattern. -/
def isAsciiLetter (c : Char) : Bool := ('A' ≤ c && c ≤ 'Z') || ('a' ≤ c && c ≤ 'z')

/-- Fourth substitution of clean_text: insert a space between a
sentence-terminating punctuation mark and an immediately following
letter. -/
def fixSpacing : List Char → List Char
  | [] => []
  | [c] => [c]
  | c1 :: c2 :: cs =>
    if isPunct c1 && isAsciiLetter c2 then c1 :: ' ' :: c2 :: fixSpacing cs
    else c1 :: fixSpacing (c2 :: cs)

/-- Drop trailing whitespace. -/
def dropEndWS : List Char → List Char
  | [] => []
  | c :: cs =>
    let r := dropEndWS cs
    if r.isEmpty && pyIsSpace c then [] else c :: r

/-- Model of Python str.strip: drop leading and trailing whitespace. -/
def strip (s : List Char) : List Char := dropEndWS (s.dropWhile pyIsSpace)

/-- clean_text from src/extractors.py: whitespace collapsing, then the
page-number substitution, then ligature replacement, then
punctuation-spacing repair, then strip. -/
def clean_text (text : List Char) : List Char :=
  strip (fixSpacing (replaceLigatures (removePageNums (collapseWS text))))

/-! ### split_text (src/main.py lines 118-151) -/

/-- text.replace of newline by space. -/
def replaceNL (s : List Char) : List Char :=
  s.map (fun c => if c = '\n' then ' ' else c)

/-- Model of Python str.split on the period character. -/
def splitOnPeriod : List Char → List (List Char)
  | [] => [[]]
  | c :: cs =>
    if c = '.' then [] :: splitOnPeriod cs
    else
      match splitOnPeriod cs with
      | [] => [[c]]
      | f :: rest => (c :: f) :: rest

/-- One step of the sentence comprehension: keep a fragment whose strip
is nonempty, as its strip with a period appended. -/
def sentF (s : List Char) : Option (List Char) :=
  let t := strip s
  if t.isEmpty then none else some (t ++ ['.'])

/-- The sentence list obtained from an already newline-flattened text. -/
def sentencesOf (s : List Char) : List (List Char) :=
  (splitOnPeriod s).filterMap sentF

/-- The sentence list of split_text: flatten newlines, split on periods,
strip fragments, keep nonempty ones with a period re-appended. -/
def mkSentences (text : List Char) : List (List Char) :=
  sentencesOf (replaceNL text)

/-- The greedy accumulation loop of split_text.  The second list
argument is the current chunk being built. -/
def buildChunks (chunkSize : Nat) : List (List Char) → List Char → List (List Char)
  | [], cur => if cur.isEmpty then [] else [cur]
  | s :: rest, cur =>
    if chunkSize < cur.length + s.length ∧ ¬ cur.isEmpty then
      cur :: buildChunks chunkSize rest s
    else
      buildChunks chunkSize rest (if cur.isEmpty then s else cur ++ ' ' :: s)

/-- split_text from src/main.py. -/
def split_text (text : List Char) (chunkSize : Nat) : List (List Char) :=
  buildChunks chunkSize (mkSentences text) []

/-- Join a list of chunks with single spaces (the joining operation the
specification uses when speaking about re-chunking the concatenation). -/
def joinSpace : List (List Char) → List Char
  | [] => []
  | [c] => c
  | c :: rest => c ++ ' ' :: joinSpace rest

/-- Whether a list ends with the given character. -/
def endsWith (c : Char) : List Char → Bool
  | [] => false
  | [x] => x = c
  | _ :: x :: xs => endsWith c (x :: xs)

/-! ### convert_to_speech (src/main.py lines 154-236) -/

/-- The silence segment appended after each chunk: the Python code
computes int(0.5 * sample_rate) zero samples, which is the floor, i.e.
sample_rate / 2 in integer division. -/
def silence (sampleRate : Nat) : List Int :=
  List.replicate (sampleRate / 2) 0

/-- Outcome of a conversion run.  A file is written only in the success
case; both failure cases return False from convert_to_speech without
writing anything. -/
inductive ConvertOutcome where
  | success (samples : List Int)
  | synthesisFailure (chunkIndex : Nat)
  | noAudioProduced
deriving DecidableEq

/-- The per-chunk loop of convert_to_speech.  The pipeline parameter
models the external TTS engine call: for a chunk it either raises
(error) or yields a list of audio buffers.  On success the collected
segment list holds every yielded buffer followed by one silence segment
per chunk; on a raise the loop aborts with the failing chunk index. -/
def runChunks (pipeline : List Char → Except String (List (List Int)))
    (sampleRate : Nat) : Nat → List (List Char) → Except Nat (List (List Int))
  | _, [] => Except.ok []
  | i, c :: cs =>
    match pipeline c with
    | Except.error _ => Except.error i
    | Except.ok bufs =>
      match runChunks pipeline sampleRate (i + 1) cs with
      | Except.error j => Except.error j
      | Except.ok rest => Except.ok (bufs ++ silence sampleRate :: rest)

/-- Model of np.concatenate over the collected segments. -/
def npConcat : List (List Int) → List Int
  | [] => []
  | s :: rest => s ++ npConcat rest

/-- The part of convert_to_speech after chunking: run all chunks, then
either report the failing chunk, report that no audio was produced
(empty segment list), or write the concatenated audio. -/
def driveChunks (pipeline : List Char → Except String (List (List Int)))
    (sampleRate : Nat) (chunks : List (List Char)) : ConvertOutcome :=
  match runChunks pipeline sampleRate 0 chunks with
  | Except.error i => ConvertOutcome.synthesisFailure i
  | Except.ok segs =>
    if segs.isEmpty then ConvertOutcome.noAudioProduced
    else ConvertOutcome.success (npConcat segs)

/-- The chunk-cap step of convert_to_speech: chunks are truncated only
when max_chunks is present and positive. -/
def applyCap (maxChunks : Option Int) (chunks : List (List Char)) : List (List Char) :=
  match maxChunks with
  | none => chunks
  | some m => if 0 < m then chunks.take m.toNat else chunks

/-- convert_to_speech from src/main.py, with the external engine as a
parameter: split the text, apply the optional cap, then drive the
synthesis loop. -/
def convert_to_speech (pipeline : List Char → Except String (List (List Int)))
    (text : List Char) (chunkSize sampleRate : Nat)
    (maxChunks : Option Int) : ConvertOutcome :=
  driveChunks pipeline sampleRate (applyCap maxChunks (split_text text chunkSize))

/-- The CLI-to-core mapping in main (src/main.py line 281): a cap of 0
becomes None, anything else is passed through. -/
def capToOption (m : Int) : Option Int := if m = 0 then none else some m

/-- Total sample count yielded by the engine for one chunk. -/
def bufLen (pipeline : List Char → Except String (List (List Int)))
    (c : List Char) : Nat :=
  match pipeline c with
  | Except.ok bufs => (bufs.map List.length).sum
  | Except.error _ => 0

/-- Total speech sample count over a chunk list. -/
def speechTotal (pipeline : List Char → Except String (List (List Int)))
    (cs : List (List Char)) : Nat :=
  (cs.map (bufLen pipeline)).sum

/-! ### extract_text (src/extractors.py lines 11-72) -/

/-- Index of the last occurrence of a character, or -1 (Python rfind). -/
def rfindAux (c : Char) : List Char → Nat → Int → Int
  | [], _, best => best
  | x :: xs, i, best => rfindAux c xs (i + 1) (if x = c then (i : Int) else best)

/-- Python str.rfind. -/
def rfind (s : List Char) (c : Char) : Int := rfindAux c s 0 (-1)

/-- The extension part of os.path.splitext: the suffix starting at the
last dot of the basename, provided some character of the basename before
that dot is not itself a dot. -/
def extOf (p : List Char) : List Char :=
  let sepIndex := rfind p '/'
  let dotIndex := rfind p '.'
  if sepIndex < dotIndex then
    let base := (p.take dotIndex.toNat).drop (sepIndex + 1).toNat
    if base.all (fun c => c = '.') then [] else p.drop dotIndex.toNat
  else []

/-- ASCII lower-casing of one character (str.lower on extensions). -/
def asciiLower (c : Char) : Char :=
  if 'A' ≤ c ∧ c ≤ 'Z' then Char.ofNat (c.toNat + 32) else c

/-- The lower-cased extension used by get_extractor. -/
def extLower (p : List Char) : List Char := (extOf p).map asciiLower

/-- Error taxonomy of the extraction stage. -/
inductive ExtractError where
  | notFound
  | unsupportedFormat
deriving DecidableEq

/-- get_extractor from src/extractors.py: dispatch on the lower-cased
extension, raising ValueError (UnsupportedFormat) for anything but
.epub.  The returned extractor carries no data in this model. -/
def get_extractor (p : List Char) : Except ExtractError Unit :=
  if extLower p = ".epub".toList then Except.ok () else Except.error ExtractError.unsupportedFormat

/-- BaseExtractor.extract: raise FileNotFoundError when the path does
not exist, otherwise read the document through the external EPUB
library (modelled by the reader parameter). -/
def extractorExtract (exists_ : List Char → Bool)
    (readEpub : List Char → List Char) (p : List Char) : Except ExtractError (List Char) :=
  if exists_ p then Except.ok (readEpub p) else Except.error ExtractError.notFound

/-- extract_text from src/extractors.py: get_extractor runs first, then
the extractor's existence check and read, then clean_text. -/
def extract_text (exists_ : List Char → Bool)
    (readEpub : List Char → List Char) (p : List Char) : Except ExtractError (List Char) :=
  match get_extractor p with
  | Except.error e => Except.error e
  | Except.ok _ =>
    match extractorExtract exists_ readEpub p with
    | Except.error e => Except.error e
    | Except.ok raw => Except.ok (clean_text raw)

/-! ### Auxiliary predicates used in the statements -/

/-- No two adjacent characters are both whitespace. -/
def noDoubleWS : List Char → Bool
  | a :: b :: rest => (!(pyIsSpace a && pyIsSpace b)) && noDoubleWS (b :: rest)
  | _ => true

/-- Whether the first character is whitespace. -/
def headIsSpace : List Char → Bool
  | [] => false
  | c :: _ => pyIsSpace c

/-- Shape of every sentence produced by mkSentences: a nonempty
stripped period-free newline-free body followed by one period. -/
def SentenceWF (s : List Char) : Prop :=
  ∃ b, s = b ++ ['.'] ∧ b ≠ [] ∧ strip b = b ∧ '.' ∉ b ∧ '\n' ∉ b

/-! ### Whitespace lemmas -/

theorem noDoubleWS_tail {c : Char} {l : List Char} (h : noDoubleWS (c :: l) = true) :
    noDoubleWS l = true := by
  cases l with
  | nil => rfl
  | cons b rest =>
    simp only [noDoubleWS, Bool.and_eq_true] at h
    exact h.2

theorem noDoubleWS_cons_of_head (c : Char) {l : List Char} (hc : pyIsSpace c = false)
    (hl : noDoubleWS l = true) : noDoubleWS (c :: l) = true := by
  cases l with
  | nil => rfl
  | cons b rest => simp [noDoubleWS, hc, hl]

theorem noDoubleWS_cons_of_next (c : Char) {l : List Char} (h2 : headIsSpace l = false)
    (hl : noDoubleWS l = true) : noDoubleWS (c :: l) = true := by
  cases l with
  | nil => rfl
  | cons b rest =>
    simp only [headIsSpace] at h2
    simp [noDoubleWS, h2, hl]

theorem collapseWSAux_head (s : List Char) : headIsSpace (collapseWSAux true s) = false := by
  induction s with
  | nil => rfl
  | cons c cs ih =>
    by_cases h : pyIsSpace c = true
    · simpa [collapseWSAux, h] using ih
    · simp only [Bool.not_eq_true] at h
      simp [collapseWSAux, h, headIsSpace]

theorem collapseWSAux_noDouble (s : List Char) : ∀ b, noDoubleWS (collapseWSAux b s) = true := by
  induction s with
  | nil => intro _; rfl
  | cons c cs ih =>
    intro b
    by_cases h : pyIsSpace c = true
    · cases b with
      | true => simpa [collapseWSAux, h] using ih true
      | false =>
        simp only [collapseWSAux, h, if_true, Bool.false_eq_true, if_false]
        exact noDoubleWS_cons_of_next ' ' (collapseWSAux_head cs) (ih true)
    · simp only [Bool.not_eq_true] at h
      simp only [collapseWSAux, h, Bool.false_eq_true, if_false]
      exact noDoubleWS_cons_of_head c h (ih false)

theorem collapseWS_noDouble (s : List Char) : noDoubleWS (collapseWS s) = true :=
  collapseWSAux_noDouble s false

theorem collapseWSAux_mem : ∀ (s : List Char) (b : Bool) (x : Char),
    x ∈ collapseWSAux b s → x = ' ' ∨ pyIsSpace x = false := by
  intro s
  induction s with
  | nil => intro b x hx; simp [collapseWSAux] at hx
  | cons c cs ih =>
    intro b x hx
    by_cases h : pyIsSpace c = true
    · cases b with
      | true =>
        simp only [collapseWSAux, h, if_true] at hx
        exact ih true x hx
      | false =>
        simp only [collapseWSAux, h, if_true, Bool.false_eq_true, if_false,
          List.mem_cons] at hx
        rcases hx with he | hm
        · exact Or.inl he
        · exact ih true x hm
    · simp only [Bool.not_eq_true] at h
      simp only [collapseWSAux, h, Bool.false_eq_true, if_false, List.mem_cons] at hx
      rcases hx with he | hm
      · subst he; exact Or.inr h
      · exact ih false x hm

theorem collapseWS_no_newline (s : List Char) : '\n' ∉ collapseWS s := by
  intro hmem
  rcases collapseWSAux_mem s false '\n' hmem with h | h
  · exact absurd h (by decide)
  · exact absurd h (by decide)

theorem matchPageAt_none {s : List Char} (h : ∀ c ∈ s, c ≠ '\n') : matchPageAt s = none := by
  cases s with
  | nil => rfl
  | cons c cs =>
    have hc : ¬ c = '\n' := h c (List.mem_cons_self c cs)
    simp [matchPageAt, hc]

theorem removePageNums_id {s : List Char} (h : ∀ c ∈ s, c ≠ '\n') :
    removePageNums s = s := by
  induction s with
  | nil => simp [removePageNums]
  | cons c cs ih =>
    have hm : matchPageAt (c :: cs) = none := matchPageAt_none h
    have ht : removePageNums cs = cs := ih (fun x hx => h x (List.mem_cons_of_mem c hx))
    simp [removePageNums, hm, ht]

theorem replaceLigatures_head (l : List Char) :
    headIsSpace (replaceLigatures l) = headIsSpace l := by
  cases l with
  | nil => rfl
  | cons c cs =>
    by_cases h1 : c = 'ﬁ'
    · subst h1; simp [replaceLigatures, headIsSpace]; decide
    · by_cases h2 : c = 'ﬂ'
      · subst h2; simp [replaceLigatures, h1, headIsSpace]; decide
      · simp [replaceLigatures, h1, h2, headIsSpace]

theorem replaceLigatures_noDouble {l : List Char} (h : noDoubleWS l = true) :
    noDoubleWS (replaceLigatures l) = true := by
  induction l with
  | nil => rfl
  | cons c cs ih =>
    have hr : noDoubleWS (replaceLigatures cs) = true := ih (noDoubleWS_tail h)
    by_cases h1 : c = 'ﬁ'
    · subst h1
      simp only [replaceLigatures, if_pos rfl]
      exact noDoubleWS_cons_of_head _ (by decide) (noDoubleWS_cons_of_head _ (by decide) hr)
    · by_cases h2 : c = 'ﬂ'
      · subst h2
        simp only [replaceLigatures, if_neg h1, if_pos rfl]
        exact noDoubleWS_cons_of_head _ (by decide) (noDoubleWS_cons_of_head _ (by decide) hr)
      · simp only [replaceLigatures, if_neg h1, if_neg h2]
        by_cases hc : pyIsSpace c = true
        · cases cs with
          | nil => simp [replaceLigatures, noDoubleWS]
          | cons b rest =>
            have hb : pyIsSpace b = false := by
              simp only [noDoubleWS, Bool.and_eq_true, Bool.not_eq_true',
                Bool.and_eq_false_iff] at h
              rcases h.1 with hfc | hfb
              · rw [hc] at hfc; exact absurd hfc (by decide)
              · exact hfb
            have hhead : headIsSpace (replaceLigatures (b :: rest)) = false := by
              rw [replaceLigatures_head]; simp [headIsSpace, hb]
            exact noDoubleWS_cons_of_next c hhead hr
        · simp only [Bool.not_eq_true] at hc
          exact noDoubleWS_cons_of_head c hc hr

theorem fixSpacing_cons (a : Char) (l : List Char) :
    ∃ t, fixSpacing (a :: l) = a :: t := by
  cases l with
  | nil => exact ⟨[], rfl⟩
  | cons b bs =>
    by_cases h : (isPunct a && isAsciiLetter b) = true
    · exact ⟨' ' :: b :: fixSpacing bs, by simp [fixSpacing, h]⟩
    · exact ⟨fixSpacing (b :: bs), by simp [fixSpacing, h]⟩

theorem fixSpacing_noDouble : ∀ l : List Char, noDoubleWS l = true →
    noDoubleWS (fixSpacing l) = true
  | [], _ => rfl
  | [c], _ => rfl
  | c1 :: c2 :: cs, h => by
    have h12 : (!(pyIsSpace c1 && pyIsSpace c2)) = true := by
      simp only [noDoubleWS, Bool.and_eq_true] at h
      exact h.1
    have htail : noDoubleWS (c2 :: cs) = true := noDoubleWS_tail h
    by_cases hp : (isPunct c1 && isAsciiLetter c2) = true
    · have hrec : noDoubleWS (fixSpacing cs) = true :=
        fixSpacing_noDouble cs (noDoubleWS_tail htail)
      rw [Bool.and_eq_true] at hp
      have hc1 : pyIsSpace c1 = false := by
        rcases hp with ⟨hpunct, _⟩
        simp only [isPunct, Bool.or_eq_true, decide_eq_true_eq] at hpunct
        rcases hpunct with (rfl | rfl) | rfl <;> rfl
      have hc2 : pyIsSpace c2 = false := by
        rcases hp with ⟨_, hlet⟩
        by_contra hcon
        simp only [Bool.not_eq_false] at hcon
        simp only [pyIsSpace, Bool.or_eq_true, decide_eq_true_eq] at hcon
        rcases hcon with ((((rfl | rfl) | rfl) | rfl) | rfl) | rfl <;>
          exact absurd hlet (by decide)
      have hcond : (isPunct c1 && isAsciiLetter c2) = true := by
        rw [Bool.and_eq_true]; exact hp
      simp only [fixSpacing, hcond, if_true]
      exact noDoubleWS_cons_of_head _ hc1 (noDoubleWS_cons_of_next _
        (by simp [headIsSpace, hc2]) (noDoubleWS_cons_of_head _ hc2 hrec))
    · have hrec : noDoubleWS (fixSpacing (c2 :: cs)) = true :=
        fixSpacing_noDouble (c2 :: cs) htail
      obtain ⟨t, ht⟩ := fixSpacing_cons c2 cs
      have hstep : fixSpacing (c1 :: c2 :: cs) = c1 :: fixSpacing (c2 :: cs) := by
        simp only [fixSpacing, hp, Bool.false_eq_true, if_false]
      rw [hstep, ht]
      rw [ht] at hrec
      simp only [noDoubleWS, Bool.and_eq_true]
      exact ⟨h12, hrec⟩

theorem dropEndWS_cases (c : Char) (cs : List Char) :
    dropEndWS (c :: cs) = [] ∨ dropEndWS (c :: cs) = c :: dropEndWS cs := by
  by_cases h : ((dropEndWS cs).isEmpty && pyIsSpace c) = true
  · exact Or.inl (by simp [dropEndWS, h])
  · exact Or.inr (by simp [dropEndWS, h])

theorem dropEndWS_noDouble {l : List Char} (h : noDoubleWS l = true) :
    noDoubleWS (dropEndWS l) = true := by
  induction l with
  | nil => rfl
  | cons c cs ih =>
    have ihcs : noDoubleWS (dropEndWS cs) = true := ih (noDoubleWS_tail h)
    rcases dropEndWS_cases c cs with hc | hc
    · rw [hc]; rfl
    · rw [hc]
      cases cs with
      | nil => rfl
      | cons b rest =>
        rcases dropEndWS_cases b rest with hb | hb
        · rw [hb]; rfl
        · rw [hb]
          rw [hb] at ihcs
          have h12 : (!(pyIsSpace c && pyIsSpace b)) = true := by
            simp only [noDoubleWS, Bool.and_eq_true] at h
            exact h.1
          simp only [noDoubleWS, Bool.and_eq_true]
          exact ⟨h12, ihcs⟩

theorem dropWhile_noDouble (p : Char → Bool) {l : List Char} (h : noDoubleWS l = true) :
    noDoubleWS (l.dropWhile p) = true := by
  induction l with
  | nil => rfl
  | cons c cs ih =>
    by_cases hc : p c = true
    · simp only [List.dropWhile_cons, hc, if_true]
      exact ih (noDoubleWS_tail h)
    · simp only [Bool.not_eq_true] at hc
      simp only [List.dropWhile_cons, hc, Bool.false_eq_true, if_false]
      exact h

theorem strip_noDouble {l : List Char} (h : noDoubleWS l = true) :
    noDoubleWS (strip l) = true :=
  dropEndWS_noDouble (dropWhile_noDouble pyIsSpace h)

/-- Claim C6: for every input text, the output of the normalizer
clean_text contains no run of two or more consecutive whitespace
characters. -/
theorem clean_text_no_double_whitespace (s : List Char) :
    noDoubleWS (clean_text s) = true := by
  have h1 : noDoubleWS (collapseWS s) = true := collapseWS_noDouble s
  have h2 : removePageNums (collapseWS s) = collapseWS s :=
    removePageNums_id (fun c hc heq => collapseWS_no_newline s (heq ▸ hc))
  unfold clean_text
  rw [h2]
  exact strip_noDouble (fixSpacing_noDouble _ (replaceLigatures_noDouble h1))

/-- Claim C2 (code bug witness): clean_text collapses all whitespace
first, so no newline survives to the page-number substitution, whose
pattern requires newlines.  The page-number line 42 is therefore kept:
its digits appear in the output. -/
theorem clean_text_page_number_retained :
    clean_text ("a\n42\nb".toList) = ("a 42 b".toList) ∧
      '4' ∈ clean_text ("a\n42\nb".toList) := by
  have h1 : collapseWS ("a\n42\nb".toList) = ("a 42 b".toList) := by decide
  have h2 : removePageNums ("a 42 b".toList) = ("a 42 b".toList) :=
    removePageNums_id (by decide)
  have heq : clean_text ("a\n42\nb".toList) = ("a 42 b".toList) := by
    unfold clean_text
    rw [h1, h2]
    decide
  exact ⟨heq, by rw [heq]; decide⟩

/-! ### Chunk length bound (claim C1) -/

theorem buildChunks_length_inv (n : Nat) (S : List (List Char)) :
    ∀ (ss : List (List Char)) (cur : List Char),
      (∀ s ∈ ss, s ∈ S) → (cur = [] ∨ cur ∈ S ∨ cur.length ≤ n + 1) →
      ∀ c ∈ buildChunks n ss cur, c.length ≤ n + 1 ∨ c ∈ S := by
  intro ss
  induction ss with
  | nil =>
    intro cur _ hcur c hc
    by_cases he : cur.isEmpty = true
    · simp [buildChunks, he] at hc
    · simp only [Bool.not_eq_true] at he
      simp only [buildChunks, he, Bool.false_eq_true, if_false, List.mem_singleton] at hc
      subst hc
      rcases hcur with rfl | hcur | hlen
      · simp [List.isEmpty_nil] at he
      · exact Or.inr hcur
      · exact Or.inl hlen
  | cons s rest ih =>
    intro cur hss hcur c hc
    have hsS : s ∈ S := hss s (List.mem_cons_self s rest)
    have hrest : ∀ x ∈ rest, x ∈ S := fun x hx => hss x (List.mem_cons_of_mem s hx)
    by_cases hcond : (n < cur.length + s.length ∧ ¬ cur.isEmpty = true)
    · simp only [buildChunks, if_pos hcond, List.mem_cons] at hc
      rcases hc with rfl | hm
      · rcases hcur with rfl | hcur | hlen
        · exact absurd (rfl : ([] : List Char).isEmpty = true) hcond.2
        · exact Or.inr hcur
        · exact Or.inl hlen
      · exact ih s hrest (Or.inr (Or.inl hsS)) c hm
    · simp only [buildChunks, if_neg hcond] at hc
      by_cases he : cur.isEmpty = true
      · simp only [he, if_true] at hc
        exact ih s hrest (Or.inr (Or.inl hsS)) c hc
      · simp only [he, Bool.false_eq_true, if_false] at hc
        have hle : cur.length + s.length ≤ n := by
          by_contra hgt
          exact hcond ⟨by omega, he⟩
        have hnew : (cur ++ ' ' :: s).length ≤ n + 1 := by
          simp only [List.length_append, List.length_cons]
          omega
        exact ih (cur ++ ' ' :: s) hrest (Or.inr (Or.inr hnew)) c hc

/-- Claim C1 (amended): the greedy size check in split_text does not
count the joining space, so a chunk may reach chunk size + 1; with that
slack the bound holds: every chunk is either of length at most
chunk size + 1 or a single sentence (which is kept whole when oversized,
never truncated and never dropped). -/
theorem split_text_chunk_bound (t : List Char) (n : Nat) (_hn : 1 ≤ n) :
    ∀ c ∈ split_text t n, c.length ≤ n + 1 ∨ (c ∈ mkSentences t ∧ n + 1 < c.length) := by
  intro c hc
  have h := buildChunks_length_inv n (mkSentences t) (mkSentences t) []
    (fun s hs => hs) (Or.inl rfl) c hc
  rcases h with h | h
  · exact Or.inl h
  · by_cases hlen : c.length ≤ n + 1
    · exact Or.inl hlen
    · exact Or.inr ⟨h, by omega⟩

theorem split_text_chunk_bound_witness :
    1 ≤ 9 ∧ (∀ c ∈ split_text ("ab.abcde.".toList) 9,
      c.length ≤ 9 + 1 ∨ (c ∈ mkSentences ("ab.abcde.".toList) ∧ 9 + 1 < c.length)) :=
  ⟨by decide, split_text_chunk_bound ("ab.abcde.".toList) 9 (by decide)⟩

/-- Claim C1 counterexample: with chunk size 9, the text ab.abcde.
produces the single chunk ab. abcde. of length 10 (the size check
ignores the joining space), which exceeds the chunk size and is not a
single oversized sentence (the sentences are ab. and abcde., of lengths
3 and 6). -/
theorem split_text_chunk_bound_counterexample :
    ¬ (∀ c ∈ split_text ("ab.abcde.".toList) 9,
        c.length ≤ 9 ∨ (c ∈ mkSentences ("ab.abcde.".toList) ∧ 9 < c.length)) := by
  decide

/-! ### strip and sentence well-formedness lemmas -/

theorem dropEndWS_length_le (l : List Char) : (dropEndWS l).length ≤ l.length := by
  induction l with
  | nil => exact Nat.le_refl 0
  | cons c cs ih =>
    rcases dropEndWS_cases c cs with h | h
    · rw [h]; simp
    · rw [h]; simpa using ih

theorem dropEndWS_idem (l : List Char) : dropEndWS (dropEndWS l) = dropEndWS l := by
  induction l with
  | nil => rfl
  | cons c cs ih =>
    rcases dropEndWS_cases c cs with h | h
    · rw [h]; rfl
    · rw [h]
      have hcond : ((dropEndWS cs).isEmpty && pyIsSpace c) = false := by
        by_contra hcon
        simp only [Bool.not_eq_false] at hcon
        have hnil : dropEndWS (c :: cs) = [] := by simp [dropEndWS, hcon]
        rw [h] at hnil
        exact List.cons_ne_nil _ _ hnil
      show dropEndWS (c :: dropEndWS cs) = c :: dropEndWS cs
      simp only [dropEndWS, ih, hcond, Bool.false_eq_true, if_false]

theorem mem_dropEndWS {x : Char} : ∀ {l : List Char}, x ∈ dropEndWS l → x ∈ l := by
  intro l
  induction l with
  | nil => intro h; exact absurd h (List.not_mem_nil x)
  | cons c cs ih =>
    intro h
    rcases dropEndWS_cases c cs with hc | hc
    · rw [hc] at h; exact absurd h (List.not_mem_nil x)
    · rw [hc] at h
      rcases List.mem_cons.1 h with rfl | hm
      · exact List.mem_cons_self x cs
      · exact List.mem_cons_of_mem c (ih hm)

theorem mem_strip {x : Char} {l : List Char} (h : x ∈ strip l) : x ∈ l :=
  (List.dropWhile_sublist pyIsSpace).subset (mem_dropEndWS h)

theorem dropWhile_head_false (p : Char → Bool) :
    ∀ (l : List Char) (c : Char) (t : List Char), l.dropWhile p = c :: t → p c = false := by
  intro l
  induction l with
  | nil => intro c t h; simp at h
  | cons a as ih =>
    intro c t h
    by_cases ha : p a = true
    · simp only [List.dropWhile_cons, ha, if_true] at h
      exact ih c t h
    · simp only [Bool.not_eq_true] at ha
      simp only [List.dropWhile_cons, ha, Bool.false_eq_true, if_false, List.cons.injEq] at h
      rw [← h.1]
      exact ha

theorem strip_parts {b : List Char} (h : strip b = b) :
    b.dropWhile pyIsSpace = b ∧ dropEndWS b = b := by
  have hb : dropEndWS (b.dropWhile pyIsSpace) = b := h
  have hsub : (b.dropWhile pyIsSpace).Sublist b := List.dropWhile_sublist _
  have h1 : (dropEndWS (b.dropWhile pyIsSpace)).length ≤ (b.dropWhile pyIsSpace).length :=
    dropEndWS_length_le _
  have h2 : (b.dropWhile pyIsSpace).length ≤ b.length := hsub.length_le
  have hlen : (b.dropWhile pyIsSpace).length = b.length := by
    rw [hb] at h1; omega
  have hu : b.dropWhile pyIsSpace = b := hsub.eq_of_length hlen
  rw [hu] at hb
  exact ⟨hu, hb⟩

theorem strip_idem (l : List Char) : strip (strip l) = strip l := by
  have hdw : (strip l).dropWhile pyIsSpace = strip l := by
    unfold strip
    cases hu : l.dropWhile pyIsSpace with
    | nil => rfl
    | cons c t =>
      have hc : pyIsSpace c = false := dropWhile_head_false pyIsSpace l c t hu
      rcases dropEndWS_cases c t with h | h
      · rw [h]; rfl
      · rw [h]
        simp [List.dropWhile_cons, hc]
  show dropEndWS ((strip l).dropWhile pyIsSpace) = strip l
  rw [hdw]
  show dropEndWS (dropEndWS (l.dropWhile pyIsSpace)) = strip l
  rw [dropEndWS_idem]
  rfl

theorem dropWhile_allspace {pad : List Char} (h : ∀ c ∈ pad, pyIsSpace c = true)
    (b : List Char) : (pad ++ b).dropWhile pyIsSpace = b.dropWhile pyIsSpace := by
  induction pad with
  | nil => rfl
  | cons c cs ih =>
    have hc := h c (List.mem_cons_self c cs)
    simp only [List.cons_append, List.dropWhile_cons, hc, if_true]
    exact ih (fun x hx => h x (List.mem_cons_of_mem c hx))

theorem strip_allspace {pad : List Char} (h : ∀ c ∈ pad, pyIsSpace c = true) :
    strip pad = [] := by
  have : pad.dropWhile pyIsSpace = [] := by
    have h0 := dropWhile_allspace h []
    rwa [List.append_nil] at h0
  show dropEndWS (pad.dropWhile pyIsSpace) = []
  rw [this]
  rfl

theorem strip_pad {pad b : List Char} (hpad : ∀ c ∈ pad, pyIsSpace c = true)
    (hb : strip b = b) : strip (pad ++ b) = b := by
  obtain ⟨h1, h2⟩ := strip_parts hb
  show dropEndWS ((pad ++ b).dropWhile pyIsSpace) = b
  rw [dropWhile_allspace hpad, h1, h2]

theorem splitOnPeriod_nil : splitOnPeriod [] = [[]] := rfl

theorem splitOnPeriod_cons_dot (cs : List Char) :
    splitOnPeriod ('.' :: cs) = [] :: splitOnPeriod cs := by
  simp [splitOnPeriod]

theorem splitOnPeriod_cons_nodot {c : Char} (h : ¬ c = '.') {cs : List Char}
    {g : List Char} {rest : List (List Char)} (hsp : splitOnPeriod cs = g :: rest) :
    splitOnPeriod (c :: cs) = (c :: g) :: rest := by
  simp only [splitOnPeriod, h, if_false, hsp]

theorem splitOnPeriod_ne_nil (l : List Char) : splitOnPeriod l ≠ [] := by
  induction l with
  | nil => simp [splitOnPeriod_nil]
  | cons c cs ih =>
    by_cases h : c = '.'
    · subst h; rw [splitOnPeriod_cons_dot]; exact List.cons_ne_nil _ _
    · cases hsp : splitOnPeriod cs with
      | nil => exact absurd hsp ih
      | cons g rest => rw [splitOnPeriod_cons_nodot h hsp]; exact List.cons_ne_nil _ _

theorem splitOnPeriod_no_dot : ∀ (l : List Char), ∀ f ∈ splitOnPeriod l, '.' ∉ f := by
  intro l
  induction l with
  | nil =>
    intro f hf
    rw [splitOnPeriod_nil, List.mem_singleton] at hf
    subst hf; simp
  | cons c cs ih =>
    intro f hf
    by_cases h : c = '.'
    · subst h
      rw [splitOnPeriod_cons_dot, List.mem_cons] at hf
      rcases hf with rfl | hf
      · simp
      · exact ih f hf
    · cases hsp : splitOnPeriod cs with
      | nil => exact absurd hsp (splitOnPeriod_ne_nil cs)
      | cons g rest =>
        rw [splitOnPeriod_cons_nodot h hsp, List.mem_cons] at hf
        rcases hf with rfl | hf
        · intro hmem
          rcases List.mem_cons.1 hmem with heq | hmem2
          · exact h heq.symm
          · exact ih g (hsp ▸ List.mem_cons_self g rest) hmem2
        · exact ih f (hsp ▸ List.mem_cons_of_mem g hf)

theorem splitOnPeriod_mem : ∀ (l : List Char), ∀ f ∈ splitOnPeriod l, ∀ x ∈ f, x ∈ l := by
  intro l
  induction l with
  | nil =>
    intro f hf x hx
    rw [splitOnPeriod_nil, List.mem_singleton] at hf
    subst hf
    exact absurd hx (List.not_mem_nil x)
  | cons c cs ih =>
    intro f hf x hx
    by_cases h : c = '.'
    · subst h
      rw [splitOnPeriod_cons_dot, List.mem_cons] at hf
      rcases hf with rfl | hf
      · exact absurd hx (List.not_mem_nil x)
      · exact List.mem_cons_of_mem _ (ih f hf x hx)
    · cases hsp : splitOnPeriod cs with
      | nil => exact absurd hsp (splitOnPeriod_ne_nil cs)
      | cons g rest =>
        rw [splitOnPeriod_cons_nodot h hsp, List.mem_cons] at hf
        rcases hf with rfl | hf
        · rcases List.mem_cons.1 hx with rfl | hx2
          · exact List.mem_cons_self x cs
          · exact List.mem_cons_of_mem _ (ih g (hsp ▸ List.mem_cons_self g rest) x hx2)
        · exact List.mem_cons_of_mem _ (ih f (hsp ▸ List.mem_cons_of_mem g hf) x hx)

theorem splitOnPeriod_no_dot_eq {l : List Char} (h : '.' ∉ l) : splitOnPeriod l = [l] := by
  induction l with
  | nil => rfl
  | cons c cs ih =>
    have hc : ¬ c = '.' := fun hcc => h (hcc ▸ List.mem_cons_self c cs)
    have hcs : splitOnPeriod cs = [cs] := ih (fun hm => h (List.mem_cons_of_mem c hm))
    rw [splitOnPeriod_cons_nodot hc hcs]

theorem splitOnPeriod_append_dot {b : List Char} (h : '.' ∉ b) (r : List Char) :
    splitOnPeriod (b ++ '.' :: r) = b :: splitOnPeriod r := by
  induction b with
  | nil => simp [splitOnPeriod_cons_dot]
  | cons x xs ih =>
    have hx : ¬ x = '.' := fun hxx => h (hxx ▸ List.mem_cons_self x xs)
    have hxs : splitOnPeriod (xs ++ '.' :: r) = xs :: splitOnPeriod r :=
      ih (fun hm => h (List.mem_cons_of_mem x hm))
    rw [List.cons_append, splitOnPeriod_cons_nodot hx hxs]

theorem replaceNL_no_newline (s : List Char) : '\n' ∉ replaceNL s := by
  intro h
  simp only [replaceNL, List.mem_map] at h
  obtain ⟨c, _, hc⟩ := h
  by_cases hcn : c = '\n'
  · rw [if_pos hcn] at hc; exact absurd hc (by decide)
  · rw [if_neg hcn] at hc; exact hcn hc

theorem replaceNL_mem {x : Char} {s : List Char} (h : x ∈ replaceNL s) :
    x = ' ' ∨ x ∈ s := by
  simp only [replaceNL, List.mem_map] at h
  obtain ⟨c, hcs, hc⟩ := h
  by_cases hcn : c = '\n'
  · rw [if_pos hcn] at hc; exact Or.inl hc.symm
  · rw [if_neg hcn] at hc; exact Or.inr (hc ▸ hcs)

theorem replaceNL_id {s : List Char} (h : '\n' ∉ s) : replaceNL s = s := by
  induction s with
  | nil => rfl
  | cons c cs ih =>
    have hc : ¬ c = '\n' := fun hcc => h (hcc ▸ List.mem_cons_self c cs)
    have hcs : replaceNL cs = cs := ih (fun hm => h (List.mem_cons_of_mem c hm))
    simp only [replaceNL, List.map_cons, if_neg hc]
    rw [show List.map (fun c => if c = '\n' then ' ' else c) cs = replaceNL cs from rfl, hcs]

theorem sentencesOf_WF {s : List Char} (hnl : '\n' ∉ s) :
    ∀ x ∈ sentencesOf s, SentenceWF x := by
  intro x hx
  simp only [sentencesOf, List.mem_filterMap] at hx
  obtain ⟨f, hf, hsf⟩ := hx
  simp only [sentF] at hsf
  by_cases he : (strip f).isEmpty = true
  · rw [if_pos he] at hsf; exact absurd hsf (by simp)
  · rw [if_neg he] at hsf
    have hx2 : x = strip f ++ ['.'] := (Option.some.inj hsf).symm
    refine ⟨strip f, hx2, ?_, strip_idem f, ?_, ?_⟩
    · intro hnil
      rw [hnil] at he
      exact he rfl
    · intro hdot
      exact splitOnPeriod_no_dot s f hf (mem_strip hdot)
    · intro hnlm
      exact hnl (splitOnPeriod_mem s f hf '\n' (mem_strip hnlm))

theorem mkSentences_WF (t : List Char) : ∀ x ∈ mkSentences t, SentenceWF x :=
  sentencesOf_WF (replaceNL_no_newline t)

/-! ### Chunk shape (claim C10) -/

theorem endsWith_cons_cons (c x y : Char) (xs : List Char) :
    endsWith c (x :: y :: xs) = endsWith c (y :: xs) := rfl

theorem endsWith_append (c : Char) : ∀ (a b : List Char), b ≠ [] →
    endsWith c (a ++ b) = endsWith c b := by
  intro a
  induction a with
  | nil => intro b _; rfl
  | cons x xs ih =>
    intro b hb
    cases hx : xs ++ b with
    | nil =>
      rcases List.append_eq_nil.1 hx with ⟨_, hb2⟩
      exact absurd hb2 hb
    | cons y ys =>
      calc endsWith c ((x :: xs) ++ b) = endsWith c (x :: y :: ys) := by
            rw [List.cons_append, hx]
        _ = endsWith c (y :: ys) := rfl
        _ = endsWith c (xs ++ b) := by rw [hx]
        _ = endsWith c b := ih b hb

theorem buildChunks_forall (Q : List Char → Prop)
    (hjoin : ∀ a b, Q a → Q b → Q (a ++ ' ' :: b)) (n : Nat) :
    ∀ (ss : List (List Char)) (cur : List Char),
      (∀ s ∈ ss, Q s) → (cur = [] ∨ Q cur) →
      ∀ c ∈ buildChunks n ss cur, Q c := by
  intro ss
  induction ss with
  | nil =>
    intro cur _ hcur c hc
    by_cases he : cur.isEmpty = true
    · simp [buildChunks, he] at hc
    · simp only [Bool.not_eq_true] at he
      simp only [buildChunks, he, Bool.false_eq_true, if_false, List.mem_singleton] at hc
      subst hc
      rcases hcur with rfl | hq
      · simp [List.isEmpty_nil] at he
      · exact hq
  | cons s rest ih =>
    intro cur hss hcur c hc
    have hsQ : Q s := hss s (List.mem_cons_self s rest)
    have hrest : ∀ x ∈ rest, Q x := fun x hx => hss x (List.mem_cons_of_mem s hx)
    by_cases hcond : (n < cur.length + s.length ∧ ¬ cur.isEmpty = true)
    · simp only [buildChunks, if_pos hcond, List.mem_cons] at hc
      rcases hc with rfl | hm
      · rcases hcur with rfl | hq
        · exact absurd (rfl : ([] : List Char).isEmpty = true) hcond.2
        · exact hq
      · exact ih s hrest (Or.inr hsQ) c hm
    · simp only [buildChunks, if_neg hcond] at hc
      by_cases he : cur.isEmpty = true
      · simp only [he, if_true] at hc
        exact ih s hrest (Or.inr hsQ) c hc
      · simp only [he, Bool.false_eq_true, if_false] at hc
        rcases hcur with rfl | hq
        · simp [List.isEmpty_nil] at he
        · exact ih (cur ++ ' ' :: s) hrest (Or.inr (hjoin cur s hq hsQ)) c hc

theorem chunk_shape_join (a b : List Char)
    (ha : a ≠ [] ∧ endsWith '.' a = true ∧ '\n' ∉ a)
    (hb : b ≠ [] ∧ endsWith '.' b = true ∧ '\n' ∉ b) :
    a ++ ' ' :: b ≠ [] ∧ endsWith '.' (a ++ ' ' :: b) = true ∧ '\n' ∉ a ++ ' ' :: b := by
  refine ⟨by simp, ?_, ?_⟩
  · rw [endsWith_append '.' a (' ' :: b) (by simp)]
    cases hbb : b with
    | nil => exact absurd hbb hb.1
    | cons y ys =>
      rw [endsWith_cons_cons, ← hbb]
      exact hb.2.1
  · intro hm
    rcases List.mem_append.1 hm with hm | hm
    · exact ha.2.2 hm
    · rcases List.mem_cons.1 hm with heq | hm2
      · exact absurd heq (by decide)
      · exact hb.2.2 hm2

theorem sentence_shape {x : List Char} (h : SentenceWF x) :
    x ≠ [] ∧ endsWith '.' x = true ∧ '\n' ∉ x := by
  obtain ⟨b, rfl, _, _, _, hnl⟩ := h
  refine ⟨by simp, ?_, ?_⟩
  · rw [endsWith_append '.' b ['.'] (by simp)]
    rfl
  · intro hm
    rcases List.mem_append.1 hm with hm | hm
    · exact hnl hm
    · simp at hm

theorem mkSentences_no_dot {t : List Char} (hdot : '.' ∉ t) :
    mkSentences t =
      if (strip (replaceNL t)).isEmpty then [] else [strip (replaceNL t) ++ ['.']] := by
  have hdot2 : '.' ∉ replaceNL t := by
    intro hm
    rcases replaceNL_mem hm with he | hm2
    · exact absurd he (by decide)
    · exact hdot hm2
  unfold mkSentences sentencesOf
  rw [splitOnPeriod_no_dot_eq hdot2]
  by_cases he : (strip (replaceNL t)).isEmpty = true
  · simp [sentF, he]
  · simp [sentF, he]

theorem buildChunks_single {s : List Char} (hs : s ≠ []) (n : Nat) :
    buildChunks n [s] [] = [s] := by
  have h1 : ¬ (n < ([] : List Char).length + s.length ∧ ¬ ([] : List Char).isEmpty = true) := by
    intro hcon
    exact hcon.2 rfl
  have he : s.isEmpty = false := by
    cases s with
    | nil => exact absurd rfl hs
    | cons a as => rfl
  simp only [buildChunks, if_neg h1, List.isEmpty_nil, if_true, he,
    Bool.false_eq_true, if_false]
  simp

/-- Claim C10 (amended): every chunk produced by split_text is nonempty,
ends with a period and contains no newline; an input that contains no
period at all and whose newline-flattened strip is nonempty yields the
single chunk made of the stripped newline-flattened input with a period
appended.  (The original claim fails in two details: the chunker first
replaces newlines with spaces, so the chunk is the trimmed flattened
input rather than the trimmed raw input, and an empty or all-whitespace
period-free input yields no chunk at all.) -/
theorem split_text_chunk_shape (t : List Char) (n : Nat) :
    (∀ c ∈ split_text t n, c ≠ [] ∧ endsWith '.' c = true ∧ '\n' ∉ c) ∧
      ('.' ∉ t → strip (replaceNL t) ≠ [] →
        split_text t n = [strip (replaceNL t) ++ ['.']]) := by
  constructor
  · intro c hc
    exact buildChunks_forall
      (fun c => c ≠ [] ∧ endsWith '.' c = true ∧ '\n' ∉ c)
      chunk_shape_join n (mkSentences t) []
      (fun s hs => sentence_shape (mkSentences_WF t s hs)) (Or.inl rfl) c hc
  · intro hdot hne
    have he : (strip (replaceNL t)).isEmpty = false := by
      cases hq : strip (replaceNL t) with
      | nil => exact absurd hq hne
      | cons a as => rfl
    unfold split_text
    rw [mkSentences_no_dot hdot, he]
    simp only [Bool.false_eq_true, if_false]
    exact buildChunks_single (by simp) n

theorem split_text_chunk_shape_witness :
    '.' ∉ ("hi".toList) ∧ strip (replaceNL ("hi".toList)) ≠ [] ∧
      split_text ("hi".toList) 5 = [strip (replaceNL ("hi".toList)) ++ ['.']] :=
  ⟨by decide, by decide,
    (split_text_chunk_shape ("hi".toList) 5).2 (by decide) (by decide)⟩

/-- Claim C10 counterexample: the chunker flattens newlines to spaces
before sentence splitting, so the period-free input consisting of the
letter a, a newline and the letter b yields the single chunk a-space-b-
period, which differs from the trimmed input with a period appended. -/
theorem split_text_chunk_shape_counterexample :
    '.' ∉ ("a\nb".toList) ∧
      split_text ("a\nb".toList) 7 ≠ [strip ("a\nb".toList) ++ ['.']] := by
  decide

/-! ### Idempotence of chunking (claim C5) -/

theorem joinSpace_cons {l : List (List Char)} (h : l ≠ []) (c : List Char) :
    joinSpace (c :: l) = c ++ ' ' :: joinSpace l := by
  cases l with
  | nil => exact absurd rfl h
  | cons d rest => rfl

theorem buildChunks_ne_nil (n : Nat) : ∀ (ss : List (List Char)) (cur : List Char),
    cur ≠ [] → buildChunks n ss cur ≠ [] := by
  intro ss
  induction ss with
  | nil =>
    intro cur hcur
    have he : cur.isEmpty = false := by
      cases cur with
      | nil => exact absurd rfl hcur
      | cons a as => rfl
    simp [buildChunks, he]
  | cons s rest ih =>
    intro cur hcur
    by_cases hcond : (n < cur.length + s.length ∧ ¬ cur.isEmpty = true)
    · simp only [buildChunks, if_pos hcond]
      exact List.cons_ne_nil _ _
    · simp only [buildChunks, if_neg hcond]
      have he : cur.isEmpty = false := by
        cases cur with
        | nil => exact absurd rfl hcur
        | cons a as => rfl
      simp only [he, Bool.false_eq_true, if_false]
      exact ih (cur ++ ' ' :: s) (by simp)

theorem joinSpace_buildChunks (n : Nat) : ∀ (ss : List (List Char)),
    (∀ s ∈ ss, s ≠ []) → ∀ (cur : List Char),
    joinSpace (buildChunks n ss cur) =
      if cur.isEmpty then joinSpace ss else joinSpace (cur :: ss) := by
  intro ss
  induction ss with
  | nil =>
    intro _ cur
    by_cases he : cur.isEmpty = true
    · have hc : cur = [] := by
        cases cur with
        | nil => rfl
        | cons a as => simp at he
      subst hc
      simp [buildChunks, joinSpace]
    · simp only [Bool.not_eq_true] at he
      simp only [buildChunks, he, Bool.false_eq_true, if_false]
  | cons s rest ih =>
    intro hne cur
    have hs : s ≠ [] := hne s (List.mem_cons_self s rest)
    have hrest : ∀ x ∈ rest, x ≠ [] := fun x hx => hne x (List.mem_cons_of_mem s hx)
    have hsE : s.isEmpty = false := by
      cases s with
      | nil => exact absurd rfl hs
      | cons a as => rfl
    by_cases hcond : (n < cur.length + s.length ∧ ¬ cur.isEmpty = true)
    · have hcurne : cur ≠ [] := by
        intro hc; subst hc; exact hcond.2 rfl
      have hcurE : cur.isEmpty = false := by
        cases cur with
        | nil => exact absurd rfl hcurne
        | cons a as => rfl
      simp only [buildChunks, if_pos hcond]
      rw [joinSpace_cons (buildChunks_ne_nil n rest s hs) cur]
      rw [ih hrest s, hsE]
      simp only [Bool.false_eq_true, if_false, hcurE]
      rw [joinSpace_cons (List.cons_ne_nil s rest) cur]
    · simp only [buildChunks, if_neg hcond]
      by_cases he : cur.isEmpty = true
      · have hc : cur = [] := by
          cases cur with
          | nil => rfl
          | cons a as => simp at he
        subst hc
        simp only [List.isEmpty_nil, if_true]
        rw [ih hrest s, hsE]
        simp only [Bool.false_eq_true, if_false]
      · simp only [Bool.not_eq_true] at he
        simp only [he, Bool.false_eq_true, if_false]
        rw [ih hrest (cur ++ ' ' :: s)]
        have hE2 : (cur ++ ' ' :: s).isEmpty = false := by
          cases cur with
          | nil => rfl
          | cons a as => rfl
        simp only [hE2, Bool.false_eq_true, if_false]
        cases rest with
        | nil => simp [joinSpace, List.append_assoc]
        | cons r1 rest2 =>
          rw [joinSpace_cons (List.cons_ne_nil r1 rest2) (cur ++ ' ' :: s)]
          rw [joinSpace_cons (List.cons_ne_nil s (r1 :: rest2)) cur]
          rw [joinSpace_cons (List.cons_ne_nil r1 rest2) s]
          simp [List.append_assoc]

theorem sentF_allspace {p : List Char} (h : ∀ c ∈ p, pyIsSpace c = true) :
    sentF p = none := by
  have hs : strip p = [] := strip_allspace h
  simp [sentF, hs]

theorem sentF_pad {pad b : List Char} (hpad : ∀ c ∈ pad, pyIsSpace c = true)
    (hb : strip b = b) (hbne : b ≠ []) : sentF (pad ++ b) = some (b ++ ['.']) := by
  have hs : strip (pad ++ b) = b := strip_pad hpad hb
  have he : b.isEmpty = false := by
    cases b with
    | nil => exact absurd rfl hbne
    | cons a as => rfl
  simp [sentF, hs, he]

theorem sentencesOf_joinSpace : ∀ (ss : List (List Char)) (pad : List Char),
    (∀ s ∈ ss, SentenceWF s) → (∀ c ∈ pad, pyIsSpace c = true) →
    sentencesOf (pad ++ joinSpace ss) = ss := by
  intro ss
  induction ss with
  | nil =>
    intro pad _ hpad
    have hdot : '.' ∉ pad ++ joinSpace [] := by
      intro hm
      rw [show joinSpace [] = [] from rfl, List.append_nil] at hm
      exact absurd (hpad '.' hm) (by decide)
    unfold sentencesOf
    rw [splitOnPeriod_no_dot_eq hdot]
    rw [show joinSpace ([] : List (List Char)) = [] from rfl, List.append_nil]
    simp [List.filterMap_cons, sentF_allspace hpad]
  | cons s rest ih =>
    intro pad hWF hpad
    obtain ⟨b, rfl, hbne, hbstrip, hbdot, _⟩ := hWF s (List.mem_cons_self s rest)
    have hdotpb : '.' ∉ pad ++ b := by
      intro hm
      rcases List.mem_append.1 hm with hm | hm
      · exact absurd (hpad '.' hm) (by decide)
      · exact hbdot hm
    cases rest with
    | nil =>
      have harr : pad ++ joinSpace [b ++ ['.']] = (pad ++ b) ++ '.' :: [] := by
        simp [joinSpace, List.append_assoc]
      unfold sentencesOf
      rw [harr, splitOnPeriod_append_dot hdotpb, splitOnPeriod_nil]
      simp only [List.filterMap_cons, sentF_pad hpad hbstrip hbne]
      have h0 : sentF [] = none := sentF_allspace (by intro c hc; exact absurd hc (List.not_mem_nil c))
      simp [h0]
    | cons r1 rest2 =>
      have harr : pad ++ joinSpace ((b ++ ['.']) :: r1 :: rest2) =
          (pad ++ b) ++ '.' :: (' ' :: joinSpace (r1 :: rest2)) := by
        rw [joinSpace_cons (List.cons_ne_nil r1 rest2) (b ++ ['.'])]
        simp [List.append_assoc]
      unfold sentencesOf
      rw [harr, splitOnPeriod_append_dot hdotpb]
      simp only [List.filterMap_cons, sentF_pad hpad hbstrip hbne]
      have hih := ih [' '] (fun x hx => hWF x (List.mem_cons_of_mem _ hx))
        (by intro c hc; simp at hc; subst hc; rfl)
      unfold sentencesOf at hih
      rw [show (' ' :: joinSpace (r1 :: rest2)) = [' '] ++ joinSpace (r1 :: rest2) from rfl]
      rw [hih]

theorem split_text_shape_aux (t : List Char) (n : Nat) :
    ∀ c ∈ split_text t n, c ≠ [] ∧ endsWith '.' c = true ∧ '\n' ∉ c :=
  fun c hc => buildChunks_forall
    (fun c => c ≠ [] ∧ endsWith '.' c = true ∧ '\n' ∉ c)
    chunk_shape_join n (mkSentences t) []
    (fun s hs => sentence_shape (mkSentences_WF t s hs)) (Or.inl rfl) c hc

theorem joinSpace_no_newline : ∀ (l : List (List Char)),
    (∀ c ∈ l, '\n' ∉ c) → '\n' ∉ joinSpace l
  | [], _ => by simp [joinSpace]
  | [c], h => by
    rw [show joinSpace [c] = c from rfl]
    exact h c (List.mem_cons_self c [])
  | c :: d :: rest, h => by
    rw [joinSpace_cons (List.cons_ne_nil d rest) c]
    intro hm
    rcases List.mem_append.1 hm with hm | hm
    · exact h c (List.mem_cons_self c (d :: rest)) hm
    · rcases List.mem_cons.1 hm with heq | hm2
      · exact absurd heq (by decide)
      · exact joinSpace_no_newline (d :: rest)
          (fun x hx => h x (List.mem_cons_of_mem c hx)) hm2

/-- Claim C5: chunking is idempotent on sentence boundaries: re-chunking
the space-joined concatenation of the chunker output with the same chunk
size yields exactly the same chunk sequence. -/
theorem split_text_idempotent (t : List Char) (n : Nat) :
    split_text (joinSpace (split_text t n)) n = split_text t n := by
  have hWF : ∀ s ∈ mkSentences t, SentenceWF s := mkSentences_WF t
  have hne : ∀ s ∈ mkSentences t, s ≠ [] := fun s hs => (sentence_shape (hWF s hs)).1
  have hj : joinSpace (split_text t n) = joinSpace (mkSentences t) := by
    have h0 := joinSpace_buildChunks n (mkSentences t) hne []
    rw [show split_text t n = buildChunks n (mkSentences t) [] from rfl, h0]
    simp [List.isEmpty_nil]
  have hnl : '\n' ∉ joinSpace (split_text t n) :=
    joinSpace_no_newline _ (fun c hc => (split_text_shape_aux t n c hc).2.2)
  have hsent : mkSentences (joinSpace (split_text t n)) = mkSentences t := by
    unfold mkSentences
    rw [replaceNL_id hnl, hj]
    have h1 := sentencesOf_joinSpace (mkSentences t) [] hWF
      (by intro c hc; exact absurd hc (List.not_mem_nil c))
    rw [List.nil_append] at h1
    rw [h1]
    rfl
  rw [show split_text (joinSpace (split_text t n)) n =
    buildChunks n (mkSentences (joinSpace (split_text t n))) [] from rfl, hsent]
  rfl

/-! ### Audio length accounting (claim C3) -/

theorem npConcat_append : ∀ (a b : List (List Int)),
    npConcat (a ++ b) = npConcat a ++ npConcat b
  | [], b => rfl
  | s :: rest, b => by
    simp [npConcat, npConcat_append rest b]

theorem npConcat_length : ∀ (segs : List (List Int)),
    (npConcat segs).length = (segs.map List.length).sum
  | [] => rfl
  | s :: rest => by
    simp [npConcat, npConcat_length rest]

theorem runChunks_ok_length (pl : List Char → Except String (List (List Int)))
    (sr : Nat) : ∀ (cs : List (List Char)) (i : Nat) (segs : List (List Int)),
    runChunks pl sr i cs = Except.ok segs →
    (npConcat segs).length = speechTotal pl cs + cs.length * (sr / 2) := by
  intro cs
  induction cs with
  | nil =>
    intro i segs h
    have h0 : runChunks pl sr i [] = Except.ok [] := rfl
    rw [h0] at h
    injection h with h1
    subst h1
    simp [npConcat, speechTotal]
  | cons c cs ihh =>
    intro i segs h
    cases hpc : pl c with
    | error e =>
      rw [show runChunks pl sr i (c :: cs) = Except.error i from by
        simp [runChunks, hpc]] at h
      exact absurd h (by simp)
    | ok bufs =>
      cases hr : runChunks pl sr (i + 1) cs with
      | error j =>
        rw [show runChunks pl sr i (c :: cs) = Except.error j from by
          simp [runChunks, hpc, hr]] at h
        exact absurd h (by simp)
      | ok rest =>
        rw [show runChunks pl sr i (c :: cs) =
          Except.ok (bufs ++ silence sr :: rest) from by
          simp [runChunks, hpc, hr]] at h
        injection h with h1
        subst h1
        have hIH := ihh (i + 1) rest hr
        have hbl : bufLen pl c = (bufs.map List.length).sum := by
          simp [bufLen, hpc]
        have hsil : (silence sr).length = sr / 2 := List.length_replicate _ _
        have hB : npConcat (silence sr :: rest) = silence sr ++ npConcat rest := rfl
        have hC : speechTotal pl (c :: cs) = bufLen pl c + speechTotal pl cs := by
          simp [speechTotal]
        rw [npConcat_append, List.length_append, hB, List.length_append, hsil,
          npConcat_length bufs, hC, hbl, List.length_cons, hIH]
        ring

/-- Claim C3 (amended): the silence segment appended after each chunk
holds exactly int(0.5 * sample_rate) = sample_rate / 2 zero samples
(Python int() truncates, it does not round), and on a successful run the
total output sample count equals the total speech sample count plus the
number of chunks times sample_rate / 2. -/
theorem convert_silence_and_length (sr : Nat)
    (pl : List Char → Except String (List (List Int)))
    (cs : List (List Char)) (segs : List (List Int))
    (h : runChunks pl sr 0 cs = Except.ok segs) :
    ((silence sr).length = sr / 2 ∧ ∀ x ∈ silence sr, x = 0) ∧
      (npConcat segs).length = speechTotal pl cs + cs.length * (sr / 2) := by
  refine ⟨⟨List.length_replicate _ _, ?_⟩, runChunks_ok_length pl sr cs 0 segs h⟩
  intro x hx
  exact List.eq_of_mem_replicate hx

theorem convert_silence_and_length_witness :
    runChunks (fun _ => Except.ok [[(5 : Int)]]) 3 0 [['a']] =
        Except.ok [[(5 : Int)], [0]] ∧
      (((silence 3).length = 3 / 2 ∧ ∀ x ∈ silence 3, x = 0) ∧
        (npConcat [[(5 : Int)], [0]]).length =
          speechTotal (fun _ => Except.ok [[(5 : Int)]]) [['a']] +
            ([['a']] : List (List Char)).length * (3 / 2)) :=
  ⟨rfl, convert_silence_and_length 3 (fun _ => Except.ok [[(5 : Int)]])
    [['a']] [[(5 : Int)], [0]] rfl⟩

/-- Claim C3 counterexample: at sample rate 23 the code appends
int(0.5 * 23) = 11 zero samples, while round(0.5 * 23) = round(11.5)
is 12: the claimed round formula disagrees with the code at odd sample
rates. -/
theorem convert_silence_round_counterexample :
    ((silence 23).length : ℤ) ≠ round ((23 : ℚ) / 2) := by
  have h1 : (silence 23).length = 11 := by decide
  rw [h1]
  rw [round_eq]
  norm_num

/-! ### Abort on first synthesis failure (claim C4) -/

theorem runChunks_append_error (pl : List Char → Except String (List (List Int)))
    (sr : Nat) : ∀ (pre : List (List Char)) (i : Nat) (c : List Char)
    (post : List (List Char)) (e : String),
    (∀ x ∈ pre, ∃ b, pl x = Except.ok b) → pl c = Except.error e →
    runChunks pl sr i (pre ++ c :: post) = Except.error (i + pre.length) := by
  intro pre
  induction pre with
  | nil =>
    intro i c post e _ hc
    simp [runChunks, hc]
  | cons x pre ih =>
    intro i c post e hpre hc
    obtain ⟨b, hb⟩ := hpre x (List.mem_cons_self x pre)
    have hr := ih (i + 1) c post e (fun y hy => hpre y (List.mem_cons_of_mem x hy)) hc
    rw [List.cons_append]
    rw [show runChunks pl sr i (x :: (pre ++ c :: post)) =
      Except.error (i + 1 + pre.length) from by simp [runChunks, hb, hr]]
    simp only [List.length_cons]
    congr 1
    omega

/-- Claim C4: if the synthesis call raises on one chunk (after every
earlier chunk succeeded), the whole run aborts with a failure outcome
that reports that chunk index; no audio is written (only the success
outcome writes a file) and the result does not depend on the chunks
after the failing one, which are never processed. -/
theorem convert_abort_on_failure (pl : List Char → Except String (List (List Int)))
    (sr : Nat) (pre : List (List Char)) (c : List Char) (e : String)
    (hpre : ∀ x ∈ pre, ∃ b, pl x = Except.ok b) (hc : pl c = Except.error e) :
    ∀ post, driveChunks pl sr (pre ++ c :: post) =
      ConvertOutcome.synthesisFailure pre.length := by
  intro post
  unfold driveChunks
  rw [runChunks_append_error pl sr pre 0 c post e hpre hc]
  simp

theorem convert_abort_on_failure_witness :
    driveChunks (fun s => if s = ['b'] then Except.error "boom" else Except.ok [[]]) 8
        ([['a']] ++ ['b'] :: [['c']]) = ConvertOutcome.synthesisFailure 1 :=
  convert_abort_on_failure
    (fun s => if s = ['b'] then Except.error "boom" else Except.ok [[]]) 8
    [['a']] ['b'] "boom"
    (by
      intro x hx
      simp only [List.mem_singleton] at hx
      subst hx
      exact ⟨[[]], rfl⟩)
    rfl [['c']]

/-! ### Empty input (claim C8) -/

/-- Claim C8: the empty input text yields an empty chunk sequence, and
with an empty chunk list the conversion run ends in the
no-audio-produced failure for every cap value: no output file is
written, since only the success outcome writes one. -/
theorem empty_input_no_audio (pl : List Char → Except String (List (List Int)))
    (n sr : Nat) (mc : Option Int) :
    split_text [] n = [] ∧
      convert_to_speech pl [] n sr mc = ConvertOutcome.noAudioProduced := by
  have hs : split_text [] n = [] := rfl
  refine ⟨hs, ?_⟩
  unfold convert_to_speech
  rw [hs]
  have hcap : applyCap mc [] = [] := by
    cases mc with
    | none => rfl
    | some m =>
      by_cases hm : (0 : Int) < m
      · simp [applyCap, hm]
      · simp [applyCap, hm]
  rw [hcap]
  rfl

/-! ### The chunk cap (claim C9) -/

/-- Claim C9: the CLI mapping turns a cap of 0 into None, so the
synthesis loop receives every chunk (unlimited), while a positive cap N
is passed through and truncates the chunk list to its first N elements
before the loop, without introducing any error. -/
theorem max_chunks_cap_mapping (pl : List Char → Except String (List (List Int)))
    (t : List Char) (sz sr : Nat) (m : Int) :
    convert_to_speech pl t sz sr (capToOption 0) =
        driveChunks pl sr (split_text t sz) ∧
      (0 < m → convert_to_speech pl t sz sr (capToOption m) =
        driveChunks pl sr ((split_text t sz).take m.toNat)) := by
  constructor
  · unfold convert_to_speech capToOption applyCap
    simp
  · intro hm
    have hm0 : ¬ (m = 0) := by omega
    unfold convert_to_speech capToOption applyCap
    simp [hm0, hm]

theorem max_chunks_cap_mapping_witness :
    (0 : Int) < 2 ∧
      convert_to_speech (fun _ => Except.ok [[]]) ("a. b.".toList) 1 4 (capToOption 2) =
        driveChunks (fun _ => Except.ok [[]]) 4
          ((split_text ("a. b.".toList) 1).take (2 : Int).toNat) :=
  ⟨by decide,
    (max_chunks_cap_mapping (fun _ => Except.ok [[]]) ("a. b.".toList) 1 4 2).2 (by decide)⟩

/-! ### Extraction error order (claim C7) -/

/-- Claim C7 (amended): extract_text calls get_extractor before the
existence check of BaseExtractor.extract, so a path whose lower-cased
extension is not .epub fails with UnsupportedFormat even when the path
does not exist; a .epub path that does not exist fails with NotFound;
an existing .epub path succeeds with the cleaned text. -/
theorem extract_text_error_order (exists_ : List Char → Bool)
    (readEpub : List Char → List Char) (p : List Char) :
    (extLower p ≠ (".epub".toList) →
        extract_text exists_ readEpub p = Except.error ExtractError.unsupportedFormat) ∧
      (extLower p = (".epub".toList) → exists_ p = false →
        extract_text exists_ readEpub p = Except.error ExtractError.notFound) ∧
      (extLower p = (".epub".toList) → exists_ p = true →
        extract_text exists_ readEpub p = Except.ok (clean_text (readEpub p))) := by
  refine ⟨?_, ?_, ?_⟩
  · intro hne
    unfold extract_text get_extractor
    rw [if_neg hne]
  · intro hext hex
    unfold extract_text get_extractor extractorExtract
    rw [if_pos hext]
    simp [hex]
  · intro hext hex
    unfold extract_text get_extractor extractorExtract
    rw [if_pos hext]
    simp [hex]

theorem extract_text_error_order_witness :
    extLower ("book.epub".toList) = (".epub".toList) ∧
      extract_text (fun _ => false) (fun _ => []) ("book.epub".toList) =
        Except.error ExtractError.notFound :=
  ⟨by decide,
    (extract_text_error_order (fun _ => false) (fun _ => [])
      ("book.epub".toList)).2.1 (by decide) rfl⟩

/-- Claim C7 counterexample: the non-existent path missing.txt makes
extract_text fail with UnsupportedFormat, not NotFound, because the
extension dispatch runs before any existence check. -/
theorem extract_text_notfound_counterexample :
    extract_text (fun _ => false) (fun _ => []) ("missing.txt".toList) =
        Except.error ExtractError.unsupportedFormat ∧
      ExtractError.unsupportedFormat ≠ ExtractError.notFound := by
  constructor
  · rfl
  · decide
